import Mathlib

/-!
Shallow embedding of `src/log_database_proxy_model.cpp` (swri_console,
class `LogDatabaseProxyModel`), together with proofs of the
specification's claims about it.

The external Record Store (`LogDatabase::log()`, a `std::deque<LogEntry>`)
is modelled as a `List LogEntry`, passed explicitly to every operation.
Qt's QRegExp engine is external to the repository and is modelled
abstractly as the pattern text, a validity flag and a matching function
(`indexIn`), which is everything the source reads from it.
-/

namespace SwriConsole

/-- ROS time stamp: unsigned seconds and nanoseconds. -/
structure RosTime where
  sec : Nat
  nsec : Nat
deriving DecidableEq, Repr

/-- Strict comparison of ROS times (ros::Time operator<). -/
def rosTimeLt (a b : RosTime) : Bool :=
  decide (a.sec < b.sec) || (a.sec == b.sec && decide (a.nsec < b.nsec))

/-- ros::TIME_MIN, the smallest valid ROS time: 0 seconds, 1 nanosecond. -/
def timeMin : RosTime := ⟨0, 1⟩

/-- One log record (swri_console's LogEntry): severity level byte, stamp,
sequence number, node name, origin function, file and line, message text. -/
structure LogEntry where
  level : Nat
  stamp : RosTime
  seq : Nat
  node : String
  function : String
  file : String
  line : Nat
  msg : String
deriving DecidableEq, Repr

instance : Inhabited LogEntry :=
  ⟨{ level := 0, stamp := ⟨0, 0⟩, seq := 0, node := "", function := "",
     file := "", line := 0, msg := "" }⟩

/-- Abstraction of Qt's QRegExp as used by the source: the pattern text,
whether the pattern compiled (isValid), and the matcher: indexIn returns
the position of the first match, or a negative value when there is no
match (an invalid pattern never matches). -/
structure QRegExp where
  pattern : String
  isValid : Bool
  indexIn : String → Int

/-- QRegExp::isEmpty - true when the pattern text is empty. -/
def QRegExp.isEmpty (r : QRegExp) : Bool := r.pattern.isEmpty

/-- The first list is a leading segment of the second
(element-by-element equality at the front). -/
def leadsWith : List Char → List Char → Bool
  | [], _ => true
  | _ :: _, [] => false
  | a :: as, b :: bs => a == b && leadsWith as bs

/-- The first list occurs as a contiguous run somewhere in the second. -/
def containsSub (needle : List Char) : List Char → Bool
  | [] => needle.isEmpty
  | c :: t => leadsWith needle (c :: t) || containsSub needle t

/-- QString::contains with Qt::CaseInsensitive: case-insensitive
substring test, modelled by lower-casing both sides. -/
def qcontainsCI (hay needle : String) : Bool :=
  containsSub (needle.toList.map Char.toLower) (hay.toList.map Char.toLower)

/-- The state of a LogDatabaseProxyModel: the filter configuration
(severity bitmask, accepted node names, include/exclude string lists,
regexp mode flag, include/exclude regexps) and the view state
(msg_mapping_ is the Filtered View, early_mapping_ the Pending Backward
Batch, earliest_index_ the backward cursor, latest_index_ the forward
cursor). -/
structure ProxyModel where
  severity_mask : Nat
  names : List String
  include_strings : List String
  exclude_strings : List String
  use_regular_expressions : Bool
  include_regexp : QRegExp
  exclude_regexp : QRegExp
  msg_mapping : List Nat
  early_mapping : List Nat
  earliest_index : Nat
  latest_index : Nat

/-- LogDatabaseProxyModel::testIncludeFilter: in regexp mode the include
pattern must match the message; in text mode an empty include list
accepts, otherwise the message must contain one of the include strings
case-insensitively. -/
def testIncludeFilter (m : ProxyModel) (item : LogEntry) : Bool :=
  if m.use_regular_expressions then
    decide (0 ≤ m.include_regexp.indexIn item.msg)
  else
    if m.include_strings.isEmpty then
      true
    else
      m.include_strings.any (fun s => qcontainsCI item.msg s)

/-- LogDatabaseProxyModel::acceptLogEntry: severity bit test, node-name
set membership, include filter, then the exclude rule (regexp mode: an
empty exclude pattern never excludes, otherwise the pattern must not
match; text mode: no exclude string may occur in the message). -/
def acceptLogEntry (m : ProxyModel) (item : LogEntry) : Bool :=
  if item.level &&& m.severity_mask == 0 then
    false
  else if !(m.names.contains item.node) then
    false
  else if !(testIncludeFilter m item) then
    false
  else if m.use_regular_expressions then
    m.exclude_regexp.isEmpty || decide (m.exclude_regexp.indexIn item.msg < 0)
  else
    !(m.exclude_strings.any (fun s => qcontainsCI item.msg s))

/-- Acceptance of the record stored at position i of the Record Store. -/
def acceptAt (db : List LogEntry) (m : ProxyModel) (i : Nat) : Bool :=
  acceptLogEntry m (db.getD i default)

/-- LogDatabaseProxyModel::rowCount: 0 for a valid parent index,
otherwise the size of msg_mapping_. -/
def rowCount (m : ProxyModel) (parentValid : Bool) : Nat :=
  if parentValid then 0 else m.msg_mapping.length

/-- LogDatabaseProxyModel::isIncludeValid. -/
def isIncludeValid (m : ProxyModel) : Bool :=
  if m.use_regular_expressions && !m.include_regexp.isValid then
    false
  else
    true

/-- LogDatabaseProxyModel::isExcludeValid. -/
def isExcludeValid (m : ProxyModel) : Bool :=
  if m.use_regular_expressions && !m.exclude_regexp.isValid then
    false
  else
    true

/-- Qt item-data roles distinguished by the source's data() method. -/
inductive QtRole where
  | display
  | toolTip
  | other
deriving DecidableEq, Repr

/-- Result of the data() lookup: an empty QVariant, a value formatted
from a dereferenced record (display or tooltip), or an out-of-bounds
dereference of msg_mapping_ or of the store (undefined behaviour in the
C++ source, so no defined value). -/
inductive DataResult where
  | nullVariant
  | display (item : LogEntry)
  | toolTip (item : LogEntry)
  | undefinedAccess
deriving DecidableEq, Repr

/-- LogDatabaseProxyModel::data: the guard returns an empty QVariant only
when the parent index is valid AND the row is out of range (the source's
conjunction, verbatim); otherwise the record at msg_mapping_[row] is
dereferenced and then formatted according to the role. -/
def dataAt (db : List LogEntry) (m : ProxyModel) (parentValid : Bool)
    (row : Nat) (role : QtRole) : DataResult :=
  if parentValid && decide (m.msg_mapping.length ≤ row) then
    .nullVariant
  else
    match m.msg_mapping[row]? with
    | none => .undefinedAccess
    | some idx =>
      match db[idx]? with
      | none => .undefinedAccess
      | some item =>
        match role with
        | .display => .display item
        | .toolTip => .toolTip item
        | .other => .nullVariant

/-- LogDatabaseProxyModel::reset: clear the Filtered View and the Pending
Backward Batch and set both cursors to the store's current size. -/
def reset (db : List LogEntry) (m : ProxyModel) : ProxyModel :=
  { m with msg_mapping := [], early_mapping := [],
           earliest_index := db.length, latest_index := db.length }

/-- Modelled from the spec: the Record Store's clear operation
(LogDatabase::clear, whose body is not part of the analysed source)
empties the append-only store. -/
def dbClear (_db : List LogEntry) : List LogEntry := []

/-- LogDatabaseProxyModel::clear: clears the external store itself, then
resets the view state against the now-empty store. -/
def clear (db : List LogEntry) (m : ProxyModel) : List LogEntry × ProxyModel :=
  let db2 := dbClear db
  (db2, reset db2 m)

/-- LogDatabaseProxyModel::setNodeFilter. -/
def setNodeFilter (ns : List String) (db : List LogEntry) (m : ProxyModel) : ProxyModel :=
  reset db { m with names := ns }

/-- LogDatabaseProxyModel::setSeverityFilter. -/
def setSeverityFilter (mask : Nat) (db : List LogEntry) (m : ProxyModel) : ProxyModel :=
  reset db { m with severity_mask := mask }

/-- LogDatabaseProxyModel::setUseRegularExpressions: a no-op when the
flag does not change, otherwise set it and reset. -/
def setUseRegularExpressions (b : Bool) (db : List LogEntry) (m : ProxyModel) : ProxyModel :=
  if b == m.use_regular_expressions then m
  else reset db { m with use_regular_expressions := b }

/-- LogDatabaseProxyModel::setIncludeFilters. -/
def setIncludeFilters (l : List String) (db : List LogEntry) (m : ProxyModel) : ProxyModel :=
  reset db { m with include_strings := l }

/-- LogDatabaseProxyModel::setExcludeFilters. -/
def setExcludeFilters (l : List String) (db : List LogEntry) (m : ProxyModel) : ProxyModel :=
  reset db { m with exclude_strings := l }

/-- LogDatabaseProxyModel::setIncludeRegexpPattern: install the regexp
resulting from setPattern (Qt recompiles the pattern; the result -
pattern text, validity, matcher - is supplied as the argument), then
reset unconditionally. -/
def setIncludeRegexpPattern (r : QRegExp) (db : List LogEntry) (m : ProxyModel) : ProxyModel :=
  reset db { m with include_regexp := r }

/-- LogDatabaseProxyModel::setExcludeRegexpPattern. -/
def setExcludeRegexpPattern (r : QRegExp) (db : List LogEntry) (m : ProxyModel) : ProxyModel :=
  reset db { m with exclude_regexp := r }

/-- The accepted store positions in [latest_index_, store size), in
ascending order: exactly the indices the processNewMessages loop pushes
onto new_items. -/
def newItems (db : List LogEntry) (m : ProxyModel) : List Nat :=
  (List.range' m.latest_index (db.length - m.latest_index)).filter (acceptAt db m)

/-- LogDatabaseProxyModel::processNewMessages: scan from latest_index_
to the store's size, collect accepted positions, advance latest_index_
to the store size, and append the batch (emitting one insertion
notification, the returned Bool) only when it is non-empty. -/
def processNewMessages (db : List LogEntry) (m : ProxyModel) : ProxyModel × Bool :=
  let ni := newItems db m
  if !ni.isEmpty then
    ({ m with msg_mapping := m.msg_mapping ++ ni,
              latest_index := max m.latest_index db.length }, true)
  else
    ({ m with latest_index := max m.latest_index db.length }, false)

/-- The scan loop of processOldMessages: with the given iteration budget
(100 at each invocation), process positions earliest_index_ - 1 downward
while the budget lasts and the cursor is positive, pushing each accepted
position onto the front of early_mapping_ and decrementing the cursor
once per position examined. Returns the new cursor and batch. -/
def scanOld (db : List LogEntry) (m : ProxyModel) : Nat → Nat → List Nat → Nat × List Nat
  | 0, e, em => (e, em)
  | b + 1, e, em =>
    match e with
    | 0 => (0, em)
    | e1 + 1 => scanOld db m b e1 (if acceptAt db m e1 then e1 :: em else em)

/-- LogDatabaseProxyModel::processOldMessages: run the bounded backward
scan, then merge-and-flush the pending batch to the front of
msg_mapping_ when the cursor reached 0 with a non-empty batch or the
batch size exceeds 200 (the returned Bool is the emitted insertion
notification). -/
def processOldMessages (db : List LogEntry) (m : ProxyModel) : ProxyModel × Bool :=
  let r := scanOld db m 100 m.earliest_index m.early_mapping
  if (r.1 == 0 && !r.2.isEmpty) || decide (r.2.length > 200) then
    ({ m with msg_mapping := r.2 ++ m.msg_mapping,
              early_mapping := [],
              earliest_index := r.1 }, true)
  else
    ({ m with early_mapping := r.2, earliest_index := r.1 }, false)

/-- LogDatabaseProxyModel::scheduleIdleProcessing: a further catch-up
step is scheduled exactly when the backward cursor is still positive. -/
def scheduleIdleProcessing (m : ProxyModel) : Bool :=
  decide (0 < m.earliest_index)

/-- Iterated catch-up invocations (each scheduled idle step runs
processOldMessages once). -/
def iterOld (db : List LogEntry) : Nat → ProxyModel → ProxyModel
  | 0, m => m
  | k + 1, m => iterOld db k (processOldMessages db m).1

/-- One line of the text export: data(index(i), DisplayRole), where
index(i) has an invalid parent. -/
def textLine (db : List LogEntry) (m : ProxyModel) (i : Nat) : DataResult :=
  dataAt db m false i .display

/-- LogDatabaseProxyModel::saveTextFile: one formatted line per position
of msg_mapping_, 0 to size - 1, in order. -/
def saveTextFile (db : List LogEntry) (m : ProxyModel) : List DataResult :=
  (List.range m.msg_mapping.length).map (textLine db m)

/-- One rosgraph_msgs::Log message as written by the bag export. -/
structure BagLogMsg where
  file : String
  function : String
  seq : Nat
  stamp : RosTime
  level : Nat
  line : Nat
  msg : String
  name : String
deriving DecidableEq, Repr

/-- The conversion saveBagFile applies to one record: copy the fields,
substituting the current time for a stamp below ros::TIME_MIN. -/
def bagLogOf (now : RosTime) (e : LogEntry) : BagLogMsg :=
  { file := e.file, function := e.function, seq := e.seq,
    stamp := if rosTimeLt e.stamp timeMin then now else e.stamp,
    level := e.level, line := e.line, msg := e.msg, name := e.node }

/-- LogDatabaseProxyModel::saveBagFile: iterates over the whole store
(db_->log(), begin to end) - not over msg_mapping_ - writing one
converted message per record. -/
def saveBagFile (now : RosTime) (db : List LogEntry) : List BagLogMsg :=
  db.map (bagLogOf now)

/-- The engine operations reachable from outside: a store append
followed by the synchronous forward extension, one scheduled backward
catch-up step, clear, and every filter setter (each of which resets). -/
inductive Op where
  | append (ext : List LogEntry)
  | idle
  | clearAll
  | nodeFilter (ns : List String)
  | severityFilter (mask : Nat)
  | useRegexps (b : Bool)
  | includeFilters (l : List String)
  | excludeFilters (l : List String)
  | includePattern (r : QRegExp)
  | excludePattern (r : QRegExp)

/-- One engine operation acting on the pair (Record Store, model). -/
def stepOp : List LogEntry × ProxyModel → Op → List LogEntry × ProxyModel
  | (db, m), .append ext => (db ++ ext, (processNewMessages (db ++ ext) m).1)
  | (db, m), .idle => (db, (processOldMessages db m).1)
  | (db, m), .clearAll => clear db m
  | (db, m), .nodeFilter ns => (db, setNodeFilter ns db m)
  | (db, m), .severityFilter mask => (db, setSeverityFilter mask db m)
  | (db, m), .useRegexps b => (db, setUseRegularExpressions b db m)
  | (db, m), .includeFilters l => (db, setIncludeFilters l db m)
  | (db, m), .excludeFilters l => (db, setExcludeFilters l db m)
  | (db, m), .includePattern r => (db, setIncludeRegexpPattern r db m)
  | (db, m), .excludePattern r => (db, setExcludeRegexpPattern r db m)

/-- Run a sequence of engine operations. -/
def runOps (p : List LogEntry × ProxyModel) : List Op → List LogEntry × ProxyModel
  | [] => p
  | op :: ops => runOps (stepOp p op) ops

/-- The append-only scenario: each batch of records is appended to the
store and the store's messagesAdded signal runs processNewMessages
synchronously. -/
def runAppends : List (List LogEntry) → List LogEntry × ProxyModel → List LogEntry × ProxyModel
  | [], p => p
  | ext :: rest, (db, m) =>
      runAppends rest (db ++ ext, (processNewMessages (db ++ ext) m).1)

/-- The state invariant of the engine: the cursors bracket the store,
the Filtered View and Pending Backward Batch are strictly increasing
sequences of accepted store positions, and some boundary L separates the
pending batch (inside [earliest_index_, L)) from the view (inside
[L, latest_index_)). -/
def Inv (db : List LogEntry) (m : ProxyModel) : Prop :=
  m.earliest_index ≤ m.latest_index ∧
  m.latest_index ≤ db.length ∧
  m.msg_mapping.Pairwise (· < ·) ∧
  m.early_mapping.Pairwise (· < ·) ∧
  (∀ j ∈ m.msg_mapping, acceptAt db m j = true) ∧
  (∀ j ∈ m.early_mapping, acceptAt db m j = true) ∧
  ∃ L, m.earliest_index ≤ L ∧ L ≤ m.latest_index ∧
    (∀ a ∈ m.early_mapping, m.earliest_index ≤ a ∧ a < L) ∧
    (∀ b ∈ m.msg_mapping, L ≤ b ∧ b < m.latest_index)

/-- A regexp whose matcher matches every message at position 0. -/
def reAll : QRegExp := ⟨".*", true, fun _ => 0⟩

/-- The default-constructed QRegExp: empty pattern, valid, no match. -/
def reNone : QRegExp := ⟨"", true, fun _ => -1⟩

/-- A malformed regexp: unbalanced pattern, invalid, never matches. -/
def reBad : QRegExp := ⟨"(", false, fun _ => -1⟩

/-- A concrete configuration: every severity bit set, node n accepted,
regexp mode with a match-all include pattern and an empty exclude
pattern; view state empty. -/
def m0 : ProxyModel :=
  { severity_mask := 255, names := ["n"], include_strings := [],
    exclude_strings := [], use_regular_expressions := true,
    include_regexp := reAll, exclude_regexp := reNone,
    msg_mapping := [], early_mapping := [], earliest_index := 0,
    latest_index := 0 }

/-- A concrete record accepted by the configuration m0. -/
def e0 : LogEntry :=
  { level := 2, stamp := ⟨100, 0⟩, seq := 7, node := "n",
    function := "f", file := "a.cpp", line := 1, msg := "x" }

/-- A concrete record rejected by m0 (its node is not in the set). -/
def eRej : LogEntry := { e0 with node := "other" }

/-- A one-record store whose record m0 accepts. -/
def db1 : List LogEntry := [e0]

/-- A one-record store whose record m0 rejects. -/
def db2 : List LogEntry := [eRej]

/-- The model after creating a view over db1 under m0 and letting the
backward catch-up run: the Filtered View holds position 0. -/
def mB : ProxyModel := (processOldMessages db1 (reset db1 m0)).1

/-- The model after creating a view over db2 under m0 and letting the
backward catch-up run: the Filtered View stays empty. -/
def mR : ProxyModel := (processOldMessages db2 (reset db2 m0)).1

/-- Modelled from the spec's words, for the refinement claim about the
predicate: accept iff the severity bit is set in the mask, and the
source name is in the accepted-name set, and the include rule passes
(pattern mode: the include pattern matches the message; text mode: the
include list is empty or the message contains some include string
case-insensitively), and the exclude rule passes (pattern mode: the
exclude pattern is empty or does not match the message; text mode: the
message contains no exclude string case-insensitively). -/
def specAccept (m : ProxyModel) (item : LogEntry) : Bool :=
  (!(item.level &&& m.severity_mask == 0))
  && m.names.contains item.node
  && (if m.use_regular_expressions then
        decide (0 ≤ m.include_regexp.indexIn item.msg)
      else
        m.include_strings.isEmpty
          || m.include_strings.any (fun s => qcontainsCI item.msg s))
  && (if m.use_regular_expressions then
        m.exclude_regexp.isEmpty
          || decide (m.exclude_regexp.indexIn item.msg < 0)
      else
        !(m.exclude_strings.any (fun s => qcontainsCI item.msg s)))

/-! ## Basic lemmas about the embedded operations -/

/-- processNewMessages always produces the same state, whether or not it
notifies: msg_mapping_ is extended by the accepted new positions and
latest_index_ advances to the store size. -/
theorem processNewMessages_fst (db : List LogEntry) (m : ProxyModel) :
    (processNewMessages db m).1 =
      { m with msg_mapping := m.msg_mapping ++ newItems db m,
               latest_index := max m.latest_index db.length } := by
  unfold processNewMessages
  by_cases h : (newItems db m).isEmpty
  · simp [h, List.isEmpty_iff.mp h]
  · simp [h]

/-- The predicate only reads the filter configuration, which
processNewMessages does not touch. -/
theorem acceptAt_processNew (db db2 : List LogEntry) (m : ProxyModel) :
    acceptAt db2 (processNewMessages db m).1 = acceptAt db2 m := by
  funext i
  simp only [processNewMessages]
  split <;> rfl

/-- The predicate only reads the filter configuration, which
processOldMessages does not touch. -/
theorem acceptAt_processOld (db db2 : List LogEntry) (m : ProxyModel) :
    acceptAt db2 (processOldMessages db m).1 = acceptAt db2 m := by
  funext i
  simp only [processOldMessages]
  split <;> rfl

/-- Records already stored keep their acceptance status when the store
grows: the predicate reads the record, and position i of db ++ ext is
position i of db. -/
theorem acceptAt_append (db ext : List LogEntry) (m : ProxyModel) (i : Nat)
    (h : i < db.length) : acceptAt (db ++ ext) m i = acceptAt db m i := by
  unfold acceptAt
  rw [List.getD_append _ _ _ _ h]

/-- A no-growth invocation of processNewMessages returns the state
unchanged and does not notify. -/
theorem processNew_noop (db : List LogEntry) (m : ProxyModel)
    (h : db.length ≤ m.latest_index) : processNewMessages db m = (m, false) := by
  cases m with
  | mk sm ns is es ur ir er mm em ei li =>
    simp only [ProxyModel.latest_index] at h
    simp [processNewMessages, newItems, Nat.sub_eq_zero_of_le h, Nat.max_eq_left h]

/-! ## C3 - the predicate -/

/-- C3: the predicate accepts a record iff its severity bit is set in the
mask, and its source name is in the accepted-name set (an empty set
rejects every record), and the include rule passes, and the exclude rule
passes, in that order; the code's short-circuit chain equals the spec's
conjunction. -/
theorem accept_iff_spec :
    (∀ (m : ProxyModel) (item : LogEntry),
        acceptLogEntry m item = specAccept m item) ∧
    (∀ (m : ProxyModel) (item : LogEntry),
        m.names = [] → acceptLogEntry m item = false) := by
  constructor
  · intro m item
    unfold acceptLogEntry specAccept testIncludeFilter
    cases h1 : (item.level &&& m.severity_mask == 0) with
    | true => simp [h1]
    | false =>
      cases h2 : m.names.contains item.node with
      | false => simp [h1, h2]
      | true =>
        cases h3 : m.use_regular_expressions with
        | true =>
          cases h5 : decide (0 ≤ m.include_regexp.indexIn item.msg) <;>
            simp [h1, h2, h3, h5]
        | false =>
          cases h4 : m.include_strings.isEmpty with
          | true => simp [h1, h2, h3, h4]
          | false =>
            cases h6 : m.include_strings.any (fun s => qcontainsCI item.msg s) <;>
              simp [h1, h2, h3, h4, h6]
  · intro m item h
    unfold acceptLogEntry
    simp [h, List.contains]

/-- Witness for C3: the empty-name-set clause evaluated on a concrete
record that every other rule accepts. -/
theorem accept_iff_spec_w :
    acceptLogEntry { m0 with names := [] } e0 = false :=
  accept_iff_spec.2 { m0 with names := [] } e0 rfl

/-! ## C9 - forward extension is a no-op without growth -/

/-- C9: invoking processNewMessages when the store has not grown leaves
the state unchanged and emits nothing, and an immediate repetition of
processNewMessages is always such a no-op (idempotence on the forward
cursor: no position is duplicated or dropped). -/
theorem forward_extension_idempotent :
    (∀ (db : List LogEntry) (m : ProxyModel),
        m.latest_index = db.length → processNewMessages db m = (m, false)) ∧
    (∀ (db : List LogEntry) (m : ProxyModel),
        processNewMessages db (processNewMessages db m).1 =
          ((processNewMessages db m).1, false)) := by
  constructor
  · intro db m h
    exact processNew_noop db m (le_of_eq h.symm)
  · intro db m
    apply processNew_noop
    rw [processNewMessages_fst]
    exact Nat.le_max_right _ _

/-- Witness for C9: on the one-record store with its record already
processed, processNewMessages returns the state unchanged. -/
theorem forward_extension_idempotent_w :
    processNewMessages db1 mB = (mB, false) :=
  forward_extension_idempotent.1 db1 mB (by decide)

/-! ## C10 - clear empties the external store -/

/-- C10: clear() does not merely reset the engine: it empties the
external Record Store itself, after which the store's size is 0, both
cursors are 0, and the view and pending batch are empty - the store's
contents are not preserved. -/
theorem clear_empties_store :
    ∀ (db : List LogEntry) (m : ProxyModel),
      (clear db m).1 = [] ∧
      ((clear db m).2).earliest_index = 0 ∧
      ((clear db m).2).latest_index = 0 ∧
      ((clear db m).2).msg_mapping = [] ∧
      ((clear db m).2).early_mapping = [] := by
  intro db m
  simp [clear, dbClear, reset]

/-! ## C4 - row lookup out-of-bounds behaviour -/

/-- Counterexample for C4: on a reachable state with an empty view,
position 0 is out of range, yet data() does not signal an out-of-bounds
condition: with a valid parent it silently returns the default empty
QVariant, and with an invalid parent the conjunctive guard does not fire
and the lookup dereferences msg_mapping_ out of bounds. -/
theorem data_oob_cex :
    rowCount mR false = 0 ∧
    dataAt db2 mR true 0 .display = DataResult.nullVariant ∧
    dataAt db2 mR false 0 .display = DataResult.undefinedAccess := by
  decide

/-- C4 amended: for an out-of-range position, data() returns the empty
QVariant when the parent index is valid and otherwise performs an
unguarded out-of-bounds dereference (no distinct out-of-bounds signal
exists); for an in-range position (invalid parent) it dereferences the
Record Store at msg_mapping_[position]. -/
theorem data_access_amended :
    ∀ (db : List LogEntry) (m : ProxyModel) (row : Nat),
      (m.msg_mapping.length ≤ row →
        dataAt db m true row .display = DataResult.nullVariant) ∧
      (m.msg_mapping.length ≤ row →
        dataAt db m false row .display = DataResult.undefinedAccess) ∧
      (∀ (idx : Nat) (item : LogEntry),
        m.msg_mapping[row]? = some idx → db[idx]? = some item →
        dataAt db m false row .display = DataResult.display item) := by
  intro db m row
  refine ⟨?_, ?_, ?_⟩
  · intro h
    simp [dataAt, h]
  · intro h
    simp [dataAt, List.getElem?_eq_none h]
  · intro idx item h1 h2
    simp [dataAt, h1, h2]

/-- Witness for C4: the amended lookup behaviour evaluated on concrete
states - an empty view at position 0 and a one-row view dereferencing
record e0. -/
theorem data_access_amended_w :
    dataAt db2 mR true 0 .display = DataResult.nullVariant ∧
    dataAt db1 mB false 0 .display = DataResult.display e0 :=
  ⟨(data_access_amended db2 mR 0).1 (by decide),
   (data_access_amended db1 mB 0).2.2 0 e0 (by decide) (by decide)⟩

/-! ## C5 - malformed include pattern -/

/-- Counterexample for C5: on a reachable one-row view, installing a
malformed include pattern does make is_include_valid() false, but
row_count() does not remain unchanged: the setter resets the view
unconditionally, so row_count() drops from 1 to 0. -/
theorem include_pattern_cex :
    rowCount mB false = 1 ∧
    isIncludeValid (setIncludeRegexpPattern reBad db1 mB) = false ∧
    rowCount (setIncludeRegexpPattern reBad db1 mB) false = 0 := by
  decide

/-- C5 amended: after setIncludeRegexpPattern with a malformed pattern
(in regexp mode), is_include_valid() returns false, and the
reconfiguration is applied rather than rejected: the view is reset, so
row_count() becomes 0 immediately. -/
theorem include_pattern_amended :
    ∀ (r : QRegExp) (db : List LogEntry) (m : ProxyModel),
      (m.use_regular_expressions = true → r.isValid = false →
        isIncludeValid (setIncludeRegexpPattern r db m) = false) ∧
      rowCount (setIncludeRegexpPattern r db m) false = 0 := by
  intro r db m
  constructor
  · intro hu hv
    simp [isIncludeValid, setIncludeRegexpPattern, reset, hu, hv]
  · simp [rowCount, setIncludeRegexpPattern, reset]

/-- Witness for C5: the amended statement evaluated at the malformed
pattern on the concrete one-row state. -/
theorem include_pattern_amended_w :
    isIncludeValid (setIncludeRegexpPattern reBad db1 mB) = false ∧
    rowCount (setIncludeRegexpPattern reBad db1 mB) false = 0 :=
  ⟨(include_pattern_amended reBad db1 mB).1 (by decide) (by decide),
   (include_pattern_amended reBad db1 mB).2⟩

/-! ## C8 - export passes -/

/-- Counterexample for C8: with one stored record that the filter
rejects, the filtered view has 0 rows and the text export writes 0
lines, yet the bag export writes 1 message - the bag variant iterates
the whole Record Store, not the filtered view's rows. -/
theorem export_cex :
    rowCount mR false = 0 ∧
    saveTextFile db2 mR = [] ∧
    (saveBagFile ⟨5, 0⟩ db2).length = 1 ∧
    saveBagFile ⟨5, 0⟩ db2 = [bagLogOf ⟨5, 0⟩ eRej] := by
  decide

/-- C8 amended: the text export performs a full linear pass over exactly
the filtered view, positions 0 to row_count()-1, writing the formatted
row of each position; the bag export instead performs a full linear pass
over the entire Record Store, position 0 to size-1, writing every record
(with the TIME_MIN stamp substitution) regardless of the filter. -/
theorem export_amended :
    ∀ (now : RosTime) (db : List LogEntry) (m : ProxyModel),
      (saveTextFile db m).length = rowCount m false ∧
      (∀ i, i < rowCount m false →
        (saveTextFile db m)[i]? = some (dataAt db m false i .display)) ∧
      (saveBagFile now db).length = db.length ∧
      (∀ i, i < db.length →
        (saveBagFile now db)[i]? = some (bagLogOf now (db.getD i default))) := by
  intro now db m
  refine ⟨?_, ?_, ?_, ?_⟩
  · simp [saveTextFile, rowCount]
  · intro i hi
    simp only [saveTextFile, textLine, List.getElem?_map]
    rw [List.getElem?_range (by simpa [rowCount] using hi)]
    rfl
  · simp [saveBagFile]
  · intro i hi
    simp only [saveBagFile, List.getElem?_map, List.getElem?_eq_getElem hi]
    simp [List.getD_eq_getElem?_getD, List.getElem?_eq_getElem hi]

/-- Witness for C8: the amended export contract evaluated on the
one-accepted-record state: the single text line is row 0's formatted
data and the single bag message is the converted record. -/
theorem export_amended_w :
    (saveTextFile db1 mB)[0]? = some (dataAt db1 mB false 0 .display) ∧
    (saveBagFile ⟨5, 0⟩ db1)[0]? = some (bagLogOf ⟨5, 0⟩ (db1.getD 0 default)) :=
  ⟨(export_amended ⟨5, 0⟩ db1 mB).2.1 0 (by decide),
   (export_amended ⟨5, 0⟩ db1 mB).2.2.2 0 (by decide)⟩

/-! ## The backward scan loop, characterised -/

/-- The scan loop examines exactly min(budget, cursor) positions,
decrementing the cursor once per position examined regardless of
accept/reject, and prepends the accepted positions - in ascending
order - to the pending batch. -/
theorem scanOld_eq (db : List LogEntry) (m : ProxyModel) :
    ∀ (b e : Nat) (em : List Nat),
      scanOld db m b e em =
        (e - min b e,
          ((List.range' (e - min b e) (min b e)).filter (acceptAt db m)) ++ em) := by
  intro b
  induction b with
  | zero =>
    intro e em
    simp [scanOld]
  | succ b ih =>
    intro e em
    match e with
    | 0 => simp [scanOld]
    | e1 + 1 =>
      have hle : min b e1 ≤ e1 := Nat.min_le_right b e1
      have hsum : e1 - min b e1 + min b e1 = e1 := Nat.sub_add_cancel hle
      have hmin : min (b + 1) (e1 + 1) = min b e1 + 1 := Nat.succ_min_succ b e1
      have hsub : e1 + 1 - min (b + 1) (e1 + 1) = e1 - min b e1 := by omega
      have hconcat :
          List.range' (e1 - min b e1) (min b e1 + 1) =
            List.range' (e1 - min b e1) (min b e1) ++ [e1] := by
        rw [List.range'_1_concat, hsum]
      rw [show scanOld db m (b + 1) (e1 + 1) em =
            scanOld db m b e1 (if acceptAt db m e1 then e1 :: em else em) from rfl,
          ih, hsub, hmin, hconcat, List.filter_append]
      by_cases hacc : acceptAt db m e1
      · simp [hacc]
      · simp [hacc]

/-- One catch-up invocation moves the backward cursor down by exactly
min(100, cursor): truncated subtraction of the batch size. -/
theorem processOldMessages_earliest (db : List LogEntry) (m : ProxyModel) :
    ((processOldMessages db m).1).earliest_index = m.earliest_index - 100 := by
  simp only [processOldMessages, scanOld_eq]
  split <;> simp <;> omega

/-- After k catch-up invocations the backward cursor has moved down by
exactly 100 * k (truncated at zero). -/
theorem iterOld_earliest (db : List LogEntry) :
    ∀ (k : Nat) (m : ProxyModel),
      (iterOld db k m).earliest_index = m.earliest_index - 100 * k := by
  intro k
  induction k with
  | zero =>
    intro m
    simp [iterOld]
  | succ k ih =>
    intro m
    rw [iterOld, ih, processOldMessages_earliest]
    omega

/-! ## C7 - catch-up terminates in the right number of steps -/

/-- C7: each catch-up invocation examines at most 100 positions and
decrements the backward cursor once per position examined regardless of
accept/reject, so for a backlog of N pre-existing records catch-up
reaches cursor 0 after exactly the ceiling of N/100 invocations - the
cursor is still positive (and another step is scheduled) after any
smaller number of invocations, and after the last one no further step is
scheduled. -/
theorem catchup_step_count :
    ∀ (db : List LogEntry) (m : ProxyModel),
      ((iterOld db ((db.length + 99) / 100) (reset db m)).earliest_index = 0 ∧
        scheduleIdleProcessing (iterOld db ((db.length + 99) / 100) (reset db m)) = false) ∧
      (∀ j, j < (db.length + 99) / 100 →
        0 < (iterOld db j (reset db m)).earliest_index ∧
        scheduleIdleProcessing (iterOld db j (reset db m)) = true) ∧
      (∀ m2 : ProxyModel,
        ((processOldMessages db m2).1).earliest_index =
          m2.earliest_index - min 100 m2.earliest_index) := by
  intro db m
  have hres : (reset db m).earliest_index = db.length := rfl
  refine ⟨⟨?_, ?_⟩, ?_, ?_⟩
  · rw [iterOld_earliest, hres]
    omega
  · simp only [scheduleIdleProcessing]
    rw [iterOld_earliest, hres]
    simp
    omega
  · intro j hj
    have h1 : (iterOld db j (reset db m)).earliest_index = db.length - 100 * j := by
      rw [iterOld_earliest, hres]
    have h2 : 0 < db.length - 100 * j := by omega
    refine ⟨by omega, ?_⟩
    simp only [scheduleIdleProcessing, h1]
    simp [h2]
  · intro m2
    rw [processOldMessages_earliest]
    omega

/-- Witness for C7: on the one-record backlog, one invocation suffices
(ceiling of 1/100 is 1), the step before it still has a positive cursor
with another step scheduled, and the invocation moves the cursor by
min(100, 1) = 1. -/
theorem catchup_step_count_w :
    ((iterOld db1 ((db1.length + 99) / 100) (reset db1 m0)).earliest_index = 0 ∧
      scheduleIdleProcessing (iterOld db1 ((db1.length + 99) / 100) (reset db1 m0)) = false) ∧
    (0 < (iterOld db1 0 (reset db1 m0)).earliest_index ∧
      scheduleIdleProcessing (iterOld db1 0 (reset db1 m0)) = true) :=
  ⟨(catchup_step_count db1 m0).1,
   (catchup_step_count db1 m0).2.1 0 (by decide)⟩

/-! ## C2 - forward extension counts exactly the accepted appends -/

/-- Along an append-only run starting at a forward cursor equal to the
store size, the store only grows at the end, the cursor tracks the store
size, and the Filtered View gains exactly the accepted appended
positions, in order. -/
theorem runAppends_spec :
    ∀ (batches : List (List LogEntry)) (db : List LogEntry) (m : ProxyModel),
      m.latest_index = db.length →
      ∃ ext : List LogEntry,
        (runAppends batches (db, m)).1 = db ++ ext ∧
        ((runAppends batches (db, m)).2).latest_index = db.length + ext.length ∧
        ((runAppends batches (db, m)).2).msg_mapping =
          m.msg_mapping ++
            (List.range' db.length ext.length).filter (acceptAt (db ++ ext) m) := by
  intro batches
  induction batches with
  | nil =>
    intro db m h
    refine ⟨[], by simp [runAppends], by simp [runAppends, h], by simp [runAppends]⟩
  | cons b bs ih =>
    intro db m h
    have hstep : runAppends (b :: bs) (db, m) =
        runAppends bs (db ++ b, (processNewMessages (db ++ b) m).1) := rfl
    have h1 : ((processNewMessages (db ++ b) m).1).latest_index = (db ++ b).length := by
      rw [processNewMessages_fst]
      show max m.latest_index (db ++ b).length = (db ++ b).length
      rw [h]
      exact Nat.max_eq_right (by simp)
    obtain ⟨ext, hdb, hlat, hmsg⟩ := ih (db ++ b) (processNewMessages (db ++ b) m).1 h1
    have hmsg1 : ((processNewMessages (db ++ b) m).1).msg_mapping =
        m.msg_mapping ++
          (List.range' db.length b.length).filter (acceptAt (db ++ b) m) := by
      rw [processNewMessages_fst]
      show m.msg_mapping ++ newItems (db ++ b) m = _
      unfold newItems
      rw [h]
      simp
    refine ⟨b ++ ext, ?_, ?_, ?_⟩
    · rw [hstep, hdb, List.append_assoc]
    · rw [hstep, hlat]
      simp [Nat.add_assoc]
    · rw [hstep, hmsg, hmsg1, acceptAt_processNew, List.append_assoc]
      have hgrow : (List.range' db.length b.length).filter (acceptAt (db ++ b) m) =
          (List.range' db.length b.length).filter (acceptAt (db ++ b ++ ext) m) := by
        apply List.filter_congr
        intro i hi
        rw [List.mem_range'_1] at hi
        exact (acceptAt_append (db ++ b) ext m i (by simp; omega)).symm
      rw [hgrow]
      have hsplit : List.range' db.length b.length ++
            List.range' (db.length + b.length) ext.length =
          List.range' db.length (ext.length + b.length) := List.range'_append_1 _ _ _
      have hstart : (db ++ b).length = db.length + b.length := by simp
      rw [hstart, ← List.filter_append, hsplit, ← List.append_assoc]
      have hlen : (b ++ ext).length = ext.length + b.length := by
        simp [Nat.add_comm]
      rw [hlen, List.append_assoc]

/-- C2: for every sequence of appended record batches under a fixed
filter configuration, after the forward extensions have run row_count()
equals the number of records appended since the view's creation (the
initial forward cursor) that satisfy the predicate. -/
theorem forward_row_count :
    ∀ (db0 : List LogEntry) (m : ProxyModel) (batches : List (List LogEntry)),
      rowCount (runAppends batches (db0, reset db0 m)).2 false =
        ((List.range' db0.length
            ((runAppends batches (db0, reset db0 m)).1.length - db0.length)).filter
          (acceptAt (runAppends batches (db0, reset db0 m)).1 m)).length := by
  intro db0 m batches
  obtain ⟨ext, hdb, _, hmsg⟩ :=
    runAppends_spec batches db0 (reset db0 m) rfl
  have haccept : acceptAt (db0 ++ ext) (reset db0 m) = acceptAt (db0 ++ ext) m := rfl
  rw [rowCount, if_neg (by simp), hmsg, hdb, haccept]
  simp [reset]

/-! ## C1 - backward catch-up is complete -/

/-- When the merge-and-flush condition is false, a cursor at 0 forces an
empty pending batch (otherwise the first disjunct would have fired). -/
theorem flushCond_zero (e : Nat) (em : List Nat)
    (hc : ¬(((e == 0) && !em.isEmpty) || decide (em.length > 200)) = true) :
    e = 0 → em = [] := by
  intro h0
  cases hE : em.isEmpty
  · exfalso
    apply hc
    rw [Bool.or_eq_true, Bool.and_eq_true]
    exact Or.inl ⟨by simp [h0], by rw [hE]; rfl⟩
  · exact List.isEmpty_iff.mp hE

/-- One catch-up invocation preserves the catch-up description: for some
boundary L2, the pending batch is exactly the accepted positions in
[cursor, L2) and the view is exactly the accepted positions in [L2, N)
in front of the forward part F; moreover a cursor at 0 forces an empty
pending batch. -/
theorem processOld_inv (db : List LogEntry) (m : ProxyModel) (F : List Nat) (N L : Nat)
    (hLN : L ≤ N) (heL : m.earliest_index ≤ L)
    (hem : m.early_mapping =
      (List.range' m.earliest_index (L - m.earliest_index)).filter (acceptAt db m))
    (hmsg : m.msg_mapping = (List.range' L (N - L)).filter (acceptAt db m) ++ F) :
    ∃ L2, L2 ≤ N ∧ ((processOldMessages db m).1).earliest_index ≤ L2 ∧
      ((processOldMessages db m).1).early_mapping =
        (List.range' ((processOldMessages db m).1).earliest_index
          (L2 - ((processOldMessages db m).1).earliest_index)).filter (acceptAt db m) ∧
      ((processOldMessages db m).1).msg_mapping =
        (List.range' L2 (N - L2)).filter (acceptAt db m) ++ F ∧
      (((processOldMessages db m).1).earliest_index = 0 →
        ((processOldMessages db m).1).early_mapping = []) := by
  have hke : min 100 m.earliest_index ≤ m.earliest_index := Nat.min_le_right _ _
  have hem2 : (List.range' (m.earliest_index - min 100 m.earliest_index)
        (min 100 m.earliest_index)).filter (acceptAt db m) ++ m.early_mapping =
      (List.range' (m.earliest_index - min 100 m.earliest_index)
        (L - (m.earliest_index - min 100 m.earliest_index))).filter (acceptAt db m) := by
    rw [hem, ← List.filter_append]
    congr 1
    have h2 := List.range'_append_1 (m.earliest_index - min 100 m.earliest_index)
      (min 100 m.earliest_index) (L - m.earliest_index)
    rw [Nat.sub_add_cancel hke] at h2
    rw [h2]
    congr 1
    omega
  simp only [processOldMessages, scanOld_eq]
  split
  case isTrue hc =>
    refine ⟨m.earliest_index - min 100 m.earliest_index, by omega, by simp, by simp, ?_, ?_⟩
    · show (List.range' (m.earliest_index - min 100 m.earliest_index)
            (min 100 m.earliest_index)).filter (acceptAt db m) ++ m.early_mapping ++
          m.msg_mapping = _
      rw [hem2, hmsg, ← List.append_assoc, ← List.filter_append]
      congr 2
      have h5 : m.earliest_index - min 100 m.earliest_index +
          (L - (m.earliest_index - min 100 m.earliest_index)) = L := by omega
      have h3 := List.range'_append_1 (m.earliest_index - min 100 m.earliest_index)
        (L - (m.earliest_index - min 100 m.earliest_index)) (N - L)
      rw [h5] at h3
      rw [h3]
      congr 1
      omega
    · intro _
      simp
  case isFalse hc =>
    refine ⟨L, hLN, by simp; omega, by simpa using hem2, by simpa using hmsg, ?_⟩
    dsimp only
    exact flushCond_zero _ _ hc

/-- Iterated catch-up preserves the catch-up description. -/
theorem iterOld_inv (db : List LogEntry) :
    ∀ (k : Nat) (m : ProxyModel) (F : List Nat) (N L : Nat),
      L ≤ N → m.earliest_index ≤ L →
      m.early_mapping =
        (List.range' m.earliest_index (L - m.earliest_index)).filter (acceptAt db m) →
      m.msg_mapping = (List.range' L (N - L)).filter (acceptAt db m) ++ F →
      (m.earliest_index = 0 → m.early_mapping = []) →
      ∃ L2, L2 ≤ N ∧ (iterOld db k m).earliest_index ≤ L2 ∧
        (iterOld db k m).early_mapping =
          (List.range' (iterOld db k m).earliest_index
            (L2 - (iterOld db k m).earliest_index)).filter (acceptAt db m) ∧
        (iterOld db k m).msg_mapping =
          (List.range' L2 (N - L2)).filter (acceptAt db m) ++ F ∧
        ((iterOld db k m).earliest_index = 0 → (iterOld db k m).early_mapping = []) := by
  intro k
  induction k with
  | zero =>
    intro m F N L h1 h2 h3 h4 h5
    exact ⟨L, h1, h2, h3, h4, h5⟩
  | succ k ih =>
    intro m F N L h1 h2 h3 h4 _
    obtain ⟨L2, g1, g2, g3, g4, g5⟩ := processOld_inv db m F N L h1 h2 h3 h4
    have hacc : acceptAt db (processOldMessages db m).1 = acceptAt db m :=
      acceptAt_processOld db db m
    obtain ⟨L3, j1, j2, j3, j4, j5⟩ :=
      ih (processOldMessages db m).1 F N L2 g1 g2
        (by rw [hacc]; exact g3) (by rw [hacc]; exact g4) g5
    rw [hacc] at j3 j4
    exact ⟨L3, j1, j2, j3, j4, j5⟩

/-- Starting from an empty pending batch, a backward cursor at N and a
view holding only the forward part F, the ceiling of N/100 catch-up
invocations drives the cursor to 0 and leaves the view equal to the
accepted positions of [0, N), in ascending order, in front of F. -/
theorem iterOld_complete (db : List LogEntry) (m : ProxyModel) (F : List Nat) (N : Nat)
    (he : m.earliest_index = N) (hearly : m.early_mapping = [])
    (hmsg : m.msg_mapping = F) :
    (iterOld db ((N + 99) / 100) m).earliest_index = 0 ∧
    (iterOld db ((N + 99) / 100) m).msg_mapping =
      (List.range N).filter (acceptAt db m) ++ F := by
  have hE : (iterOld db ((N + 99) / 100) m).earliest_index = 0 := by
    rw [iterOld_earliest, he]
    omega
  obtain ⟨L2, g1, g2, g3, g4, g5⟩ :=
    iterOld_inv db ((N + 99) / 100) m F N N (le_refl N) (by omega)
      (by rw [he, Nat.sub_self]; simpa using hearly)
      (by rw [Nat.sub_self]; simpa using hmsg)
      (fun _ => hearly)
  refine ⟨hE, ?_⟩
  have hnil : (List.range' 0 L2).filter (acceptAt db m) = [] := by
    have h6 := g5 hE
    rw [h6, hE] at g3
    simpa using g3.symm
  have hsplit : (List.range N).filter (acceptAt db m) =
      (List.range' 0 L2).filter (acceptAt db m) ++
        (List.range' L2 (N - L2)).filter (acceptAt db m) := by
    rw [List.range_eq_range', ← List.filter_append]
    congr 1
    have h7 := List.range'_append_1 0 L2 (N - L2)
    rw [Nat.zero_add] at h7
    rw [h7]
    congr 1
    omega
  rw [g4, hsplit, hnil, List.nil_append]

/-- C1: create a view at store size N = length of db0, let the store
grow by ext with the forward extension running, then run the backward
catch-up to termination (exactly ceiling(N/100) scheduled invocations
drive the backward cursor to 0): the Filtered View is exactly the
accepted positions of [0, N) in ascending order - no duplicates, no
omissions - merged in front of the forward extension's rows. -/
theorem backward_catchup_complete :
    ∀ (db0 ext : List LogEntry) (m : ProxyModel),
      (iterOld (db0 ++ ext) ((db0.length + 99) / 100)
          ((processNewMessages (db0 ++ ext) (reset db0 m)).1)).earliest_index = 0 ∧
      (iterOld (db0 ++ ext) ((db0.length + 99) / 100)
          ((processNewMessages (db0 ++ ext) (reset db0 m)).1)).msg_mapping =
        (List.range db0.length).filter (acceptAt (db0 ++ ext) m) ++
          (List.range' db0.length ext.length).filter (acceptAt (db0 ++ ext) m) := by
  intro db0 ext m
  have hfst := processNewMessages_fst (db0 ++ ext) (reset db0 m)
  have he1 : ((processNewMessages (db0 ++ ext) (reset db0 m)).1).earliest_index =
      db0.length := by rw [hfst]; rfl
  have hl1 : ((processNewMessages (db0 ++ ext) (reset db0 m)).1).early_mapping = [] := by
    rw [hfst]; rfl
  have hmm : ((processNewMessages (db0 ++ ext) (reset db0 m)).1).msg_mapping =
      (List.range' db0.length ext.length).filter (acceptAt (db0 ++ ext) m) := by
    rw [hfst]
    show (reset db0 m).msg_mapping ++ newItems (db0 ++ ext) (reset db0 m) = _
    rw [show (reset db0 m).msg_mapping = [] from rfl, List.nil_append]
    unfold newItems
    rw [show (reset db0 m).latest_index = db0.length from rfl,
        show acceptAt (db0 ++ ext) (reset db0 m) = acceptAt (db0 ++ ext) m from rfl]
    congr 2
    rw [List.length_append]
    omega
  obtain ⟨h1, h2⟩ := iterOld_complete (db0 ++ ext)
    ((processNewMessages (db0 ++ ext) (reset db0 m)).1) _ db0.length he1 hl1 hmm
  refine ⟨h1, ?_⟩
  rw [h2, acceptAt_processNew]
  rfl

/-! ## C6 - the view invariant holds at every reachable state -/

/-- A freshly reset state satisfies the invariant. -/
theorem Inv_reset (db : List LogEntry) (m : ProxyModel) : Inv db (reset db m) := by
  unfold Inv reset
  refine ⟨?_, ?_, ?_, ?_, ?_, ?_, db.length, ?_, ?_, ?_, ?_⟩ <;> simp

/-- The collected forward batch consists of accepted store positions in
[latest_index_, store size). -/
theorem newItems_mem (db : List LogEntry) (m : ProxyModel)
    (h2 : m.latest_index ≤ db.length) :
    ∀ b ∈ newItems db m,
      m.latest_index ≤ b ∧ b < db.length ∧ acceptAt db m b = true := by
  intro b hb
  unfold newItems at hb
  rw [List.mem_filter] at hb
  obtain ⟨hmem, hacc⟩ := hb
  rw [List.mem_range'_1] at hmem
  exact ⟨hmem.1, by omega, hacc⟩

/-- Forward extension (after the store grows by ext) preserves the
invariant. -/
theorem Inv_processNew (db ext : List LogEntry) (m : ProxyModel) (h : Inv db m) :
    Inv (db ++ ext) (processNewMessages (db ++ ext) m).1 := by
  obtain ⟨h1, h2, h3, h4, h5, h6, L, hL1, hL2, hEarly, hMsg⟩ := h
  rw [processNewMessages_fst]
  have hlen : db.length ≤ (db ++ ext).length := by simp
  have h2' : m.latest_index ≤ (db ++ ext).length := le_trans h2 hlen
  have hmax : max m.latest_index (db ++ ext).length = (db ++ ext).length :=
    Nat.max_eq_right h2'
  have hni := newItems_mem (db ++ ext) m h2'
  refine ⟨?_, ?_, ?_, ?_, ?_, ?_, L, ?_, ?_, ?_, ?_⟩
  · show m.earliest_index ≤ max m.latest_index (db ++ ext).length
    exact le_trans h1 (Nat.le_max_left _ _)
  · show max m.latest_index (db ++ ext).length ≤ (db ++ ext).length
    rw [hmax]
  · show (m.msg_mapping ++ newItems (db ++ ext) m).Pairwise (· < ·)
    rw [List.pairwise_append]
    refine ⟨h3, List.Pairwise.filter _ (List.pairwise_lt_range' _ _), ?_⟩
    intro a ha b hb
    exact lt_of_lt_of_le (hMsg a ha).2 (hni b hb).1
  · exact h4
  · show ∀ j ∈ m.msg_mapping ++ newItems (db ++ ext) m,
      acceptAt (db ++ ext) m j = true
    intro j hj
    rcases List.mem_append.mp hj with hj | hj
    · rw [acceptAt_append db ext m j (lt_of_lt_of_le (hMsg j hj).2 h2)]
      exact h5 j hj
    · exact (hni j hj).2.2
  · show ∀ j ∈ m.early_mapping, acceptAt (db ++ ext) m j = true
    intro j hj
    rw [acceptAt_append db ext m j
      (lt_of_lt_of_le (lt_of_lt_of_le (hEarly j hj).2 hL2) h2)]
    exact h6 j hj
  · exact hL1
  · show L ≤ max m.latest_index (db ++ ext).length
    exact le_trans hL2 (Nat.le_max_left _ _)
  · exact hEarly
  · show ∀ b ∈ m.msg_mapping ++ newItems (db ++ ext) m,
      L ≤ b ∧ b < max m.latest_index (db ++ ext).length
    intro b hb
    rw [hmax]
    rcases List.mem_append.mp hb with hb | hb
    · exact ⟨(hMsg b hb).1, lt_of_lt_of_le (hMsg b hb).2 h2'⟩
    · exact ⟨le_trans hL2 (hni b hb).1, (hni b hb).2.1⟩

/-- One backward catch-up invocation preserves the invariant. -/
theorem Inv_processOld (db : List LogEntry) (m : ProxyModel) (h : Inv db m) :
    Inv db (processOldMessages db m).1 := by
  obtain ⟨h1, h2, h3, h4, h5, h6, L, hL1, hL2, hEarly, hMsg⟩ := h
  have hke : min 100 m.earliest_index ≤ m.earliest_index := Nat.min_le_right _ _
  have hsc : ∀ a ∈ (List.range' (m.earliest_index - min 100 m.earliest_index)
        (min 100 m.earliest_index)).filter (acceptAt db m),
      m.earliest_index - min 100 m.earliest_index ≤ a ∧ a < m.earliest_index ∧
        acceptAt db m a = true := by
    intro a ha
    rw [List.mem_filter] at ha
    obtain ⟨hmem, hacc⟩ := ha
    rw [List.mem_range'_1] at hmem
    exact ⟨hmem.1, by omega, hacc⟩
  have hem' : ∀ a ∈ (List.range' (m.earliest_index - min 100 m.earliest_index)
        (min 100 m.earliest_index)).filter (acceptAt db m) ++ m.early_mapping,
      m.earliest_index - min 100 m.earliest_index ≤ a ∧ a < L ∧
        acceptAt db m a = true := by
    intro a ha
    rcases List.mem_append.mp ha with ha | ha
    · exact ⟨(hsc a ha).1, lt_of_lt_of_le (hsc a ha).2.1 hL1, (hsc a ha).2.2⟩
    · exact ⟨le_trans (by omega) (hEarly a ha).1, (hEarly a ha).2, h6 a ha⟩
  have hpair : ((List.range' (m.earliest_index - min 100 m.earliest_index)
        (min 100 m.earliest_index)).filter (acceptAt db m) ++
        m.early_mapping).Pairwise (· < ·) := by
    rw [List.pairwise_append]
    refine ⟨List.Pairwise.filter _ (List.pairwise_lt_range' _ _), h4, ?_⟩
    intro a ha b hb
    exact lt_of_lt_of_le (hsc a ha).2.1 (hEarly b hb).1
  simp only [processOldMessages, scanOld_eq]
  split
  case isTrue hc =>
    refine ⟨?_, h2, ?_, ?_, ?_, ?_, m.earliest_index - min 100 m.earliest_index,
      ?_, ?_, ?_, ?_⟩
    · show m.earliest_index - min 100 m.earliest_index ≤ m.latest_index
      omega
    · show (((List.range' _ _).filter (acceptAt db m) ++ m.early_mapping) ++
          m.msg_mapping).Pairwise (· < ·)
      rw [List.pairwise_append]
      refine ⟨hpair, h3, ?_⟩
      intro a ha b hb
      exact lt_of_lt_of_le (hem' a ha).2.1 (hMsg b hb).1
    · exact List.Pairwise.nil
    · show ∀ j ∈ ((List.range' _ _).filter (acceptAt db m) ++ m.early_mapping) ++
          m.msg_mapping, acceptAt db m j = true
      intro j hj
      rcases List.mem_append.mp hj with hj | hj
      · exact (hem' j hj).2.2
      · exact h5 j hj
    · intro j hj
      exact absurd hj (List.not_mem_nil j)
    · exact le_refl _
    · show m.earliest_index - min 100 m.earliest_index ≤ m.latest_index
      omega
    · intro a ha
      exact absurd ha (List.not_mem_nil a)
    · show ∀ b ∈ ((List.range' _ _).filter (acceptAt db m) ++ m.early_mapping) ++
          m.msg_mapping,
        m.earliest_index - min 100 m.earliest_index ≤ b ∧ b < m.latest_index
      intro b hb
      rcases List.mem_append.mp hb with hb | hb
      · exact ⟨(hem' b hb).1,
          lt_of_lt_of_le (hem' b hb).2.1 (le_trans hL2 (le_refl _))⟩
      · exact ⟨le_trans (by omega) (le_trans hL1 (hMsg b hb).1), (hMsg b hb).2⟩
  case isFalse hc =>
    refine ⟨?_, h2, h3, hpair, h5, ?_, L, ?_, hL2, ?_, hMsg⟩
    · show m.earliest_index - min 100 m.earliest_index ≤ m.latest_index
      omega
    · intro j hj
      exact (hem' j hj).2.2
    · show m.earliest_index - min 100 m.earliest_index ≤ L
      omega
    · intro a ha
      exact ⟨(hem' a ha).1, (hem' a ha).2.1⟩

/-- Every engine operation preserves the invariant (a config setter
resets, which re-establishes it from scratch). -/
theorem Inv_step (p : List LogEntry × ProxyModel) (op : Op) (h : Inv p.1 p.2) :
    Inv (stepOp p op).1 (stepOp p op).2 := by
  obtain ⟨db, m⟩ := p
  cases op with
  | append ext => exact Inv_processNew db ext m h
  | idle => exact Inv_processOld db m h
  | clearAll => exact Inv_reset [] m
  | nodeFilter ns => exact Inv_reset db _
  | severityFilter mask => exact Inv_reset db _
  | useRegexps b =>
    show Inv db (setUseRegularExpressions b db m)
    unfold setUseRegularExpressions
    split
    · exact h
    · exact Inv_reset db _
  | includeFilters l => exact Inv_reset db _
  | excludeFilters l => exact Inv_reset db _
  | includePattern r => exact Inv_reset db _
  | excludePattern r => exact Inv_reset db _

/-- The invariant holds after any sequence of engine operations. -/
theorem Inv_runOps (ops : List Op) :
    ∀ p : List LogEntry × ProxyModel, Inv p.1 p.2 →
      Inv (runOps p ops).1 (runOps p ops).2 := by
  induction ops with
  | nil => exact fun p h => h
  | cons op ops ih => exact fun p h => ih (stepOp p op) (Inv_step p op h)

/-- C6: at every state reachable from view creation by any sequence of
engine operations (store appends with forward extension, backward
catch-up steps including threshold-triggered flushes, clear, and every
filter-setter reset), the Filtered View is a strictly increasing
sequence of in-bounds Record Store positions, each of which satisfies
the predicate that admitted it (the active one - any predicate change
resets the view, so admitted entries always pass the current
predicate). -/
theorem view_invariant :
    ∀ (ops : List Op) (db0 : List LogEntry) (m : ProxyModel),
      ((runOps (db0, reset db0 m) ops).2).msg_mapping.Pairwise (· < ·) ∧
      ∀ j ∈ ((runOps (db0, reset db0 m) ops).2).msg_mapping,
        j < ((runOps (db0, reset db0 m) ops).1).length ∧
        acceptAt (runOps (db0, reset db0 m) ops).1
          (runOps (db0, reset db0 m) ops).2 j = true := by
  intro ops db0 m
  obtain ⟨_, h2, h3, _, h5, _, L, _, _, _, hMsg⟩ :=
    Inv_runOps ops (db0, reset db0 m) (Inv_reset db0 m)
  exact ⟨h3, fun j hj => ⟨lt_of_lt_of_le (hMsg j hj).2 h2, h5 j hj⟩⟩

/-- Witness for C6: after one catch-up step over the one-accepted-record
store, the view is the one-element mapping holding position 0, which is
in bounds and accepted. -/
theorem view_invariant_w :
    (0 : Nat) ∈ ((runOps (db1, reset db1 m0) [Op.idle]).2).msg_mapping ∧
    0 < ((runOps (db1, reset db1 m0) [Op.idle]).1).length ∧
    acceptAt (runOps (db1, reset db1 m0) [Op.idle]).1
      (runOps (db1, reset db1 m0) [Op.idle]).2 0 = true :=
  ⟨by decide, (view_invariant [Op.idle] db1 m0).2 0 (by decide)⟩

end SwriConsole
